import Mathlib

/-!
Verification of the archicore native engine (semantic chunker + incremental
indexer) against its specification.  Each C++ component the claims touch is
shallowly embedded: byte strings become `List Nat` (byte values 0–255),
64-bit arithmetic becomes `Nat` arithmetic reduced `% 2^64` where overflow
matters, and the imperative scan loops become structurally/well-founded
recursive functions that consume the input run by run exactly as the loops do.
-/

set_option maxHeartbeats 1000000

namespace Tokenizer

/-! ## Tokenizer (src/native/chunker/src/tokenizer.cpp)

`Tokenizer::Impl::categorize` classifies a byte with `<cctype>` in the C
locale; the byte classes below spell out those ASCII sets.  `NEWLINE` is
tested before `isspace`, exactly as in the source. -/

inductive Cat where
  | ws | letter | digit | punct | newline | other
deriving DecidableEq, Repr

def isSpaceByte (c : Nat) : Bool :=
  c == 32 || (9 ≤ c && c ≤ 13)

def isAlphaByte (c : Nat) : Bool :=
  (65 ≤ c && c ≤ 90) || (97 ≤ c && c ≤ 122)

def isDigitByte (c : Nat) : Bool :=
  48 ≤ c && c ≤ 57

def isPunctByte (c : Nat) : Bool :=
  (33 ≤ c && c ≤ 47) || (58 ≤ c && c ≤ 64) || (91 ≤ c && c ≤ 96) ||
    (123 ≤ c && c ≤ 126)

def categorize (c : Nat) : Cat :=
  if c == 10 || c == 13 then .newline
  else if isSpaceByte c then .ws
  else if isAlphaByte c || c == 95 || 128 ≤ c then .letter
  else if isDigitByte c then .digit
  else if isPunctByte c then .punct
  else .other

/-- Byte continues a LETTER run (`c != LETTER && c != DIGIT` breaks it). -/
def isWordByte (c : Nat) : Bool :=
  categorize c == .letter || categorize c == .digit

/-- Byte continues a DIGIT run in `estimate_tokens`: digits, `.`, `e`, `E`,
`+`, `-`, `x`, `X`, and hex digits `a`–`f` / `A`–`F`. -/
def isNumByte (c : Nat) : Bool :=
  isDigitByte c || c == 46 || c == 101 || c == 69 || c == 43 || c == 45 ||
    c == 120 || c == 88 || (97 ≤ c && c ≤ 102) || (65 ≤ c && c ≤ 70)

/-- Byte continues a DIGIT run in `find_boundary`, whose loop (lines 306–319)
omits the bare hex-digit ranges of `estimate_tokens`. -/
def isNumByteFB (c : Nat) : Bool :=
  isDigitByte c || c == 46 || c == 101 || c == 69 || c == 43 || c == 45 ||
    c == 120 || c == 88

/-- Token credit of a LETTER run of length `w`. -/
def wordTokens (w : Nat) : Nat :=
  if w ≤ 4 then 1 else if w ≤ 8 then 2 else if w ≤ 12 then 3 else (w + 3) / 4

/-- Token credit of a DIGIT run of length `n`: `ceil(n / 3.0)`. -/
def numTokens (n : Nat) : Nat :=
  (n + 2) / 3

/-- Two-byte operator table of `estimate_tokens` (lines 127–141). -/
def isPairEst (c d : Nat) : Bool :=
  (c == 61 && d == 61) || (c == 33 && d == 61) || (c == 60 && d == 61) ||
  (c == 62 && d == 61) || (c == 38 && d == 38) || (c == 124 && d == 124) ||
  (c == 61 && d == 62) || (c == 45 && d == 62) || (c == 58 && d == 58) ||
  (c == 43 && d == 43) || (c == 45 && d == 45) || (c == 43 && d == 61) ||
  (c == 45 && d == 61) || (c == 42 && d == 61) || (c == 47 && d == 61)

/-- Two-byte operator table of `find_boundary` (lines 326–334), which stops
after `::` — it has no `++`, `--`, `+=`, `-=`, `*=`, `/=` entries. -/
def isPairFB (c d : Nat) : Bool :=
  (c == 61 && d == 61) || (c == 33 && d == 61) || (c == 60 && d == 61) ||
  (c == 62 && d == 61) || (c == 38 && d == 38) || (c == 124 && d == 124) ||
  (c == 61 && d == 62) || (c == 45 && d == 62) || (c == 58 && d == 58)

/-- Remainder after a PUNCTUATION run that started with byte `c`: a recognized
two-byte operator consumes its second byte, and a trailing `=` (61) is absorbed
into the same token. -/
def punctRest (pair : Nat → Nat → Bool) (c : Nat) : List Nat → List Nat
  | [] => []
  | d :: ds =>
    if pair c d then
      match ds with
      | [] => []
      | e :: es => if e == 61 then es else e :: es
    else d :: ds

theorem dropWhile_length_le (p : Nat → Bool) (l : List Nat) :
    (l.dropWhile p).length ≤ l.length := by
  induction l with
  | nil => simp
  | cons c cs ih =>
    simp only [List.dropWhile]
    split
    · exact Nat.le_succ_of_le ih
    · exact Nat.le_refl _

theorem punctRest_length_le (pair : Nat → Nat → Bool) (c : Nat)
    (cs : List Nat) : (punctRest pair c cs).length ≤ cs.length := by
  match cs with
  | [] => simp [punctRest]
  | d :: [] =>
    simp only [punctRest]
    split <;> simp
  | d :: e :: es =>
    simp only [punctRest]
    split
    · split
      · simp only [List.length_cons]
        omega
      · simp only [List.length_cons]
        omega
    · exact Nat.le_refl _

/-- `Tokenizer::Impl::estimate_tokens` (lines 53–161): scan the byte list run
by run, crediting each run per the table in the source. -/
def estimate_tokens : List Nat → Nat
  | [] => 0
  | c :: cs =>
    match categorize c with
    | .ws => 1 + estimate_tokens (cs.dropWhile (fun b => categorize b == .ws))
    | .newline => 1 + estimate_tokens cs
    | .letter =>
        wordTokens (1 + (cs.takeWhile isWordByte).length) +
          estimate_tokens (cs.dropWhile isWordByte)
    | .digit =>
        numTokens (1 + (cs.takeWhile isNumByte).length) +
          estimate_tokens (cs.dropWhile isNumByte)
    | .punct => 1 + estimate_tokens (punctRest isPairEst c cs)
    | .other => 1 + estimate_tokens cs
termination_by l => l.length
decreasing_by
  all_goals simp only [List.length_cons]
  all_goals first
    | exact Nat.lt_succ_of_le (Tokenizer.dropWhile_length_le _ _)
    | exact Nat.lt_succ_of_le (punctRest_length_le _ _ _)
    | omega

/-- `Tokenizer::count_tokens` delegates to `estimate_tokens`. -/
def count_tokens (text : List Nat) : Nat :=
  estimate_tokens text

/-- One loop iteration of `find_boundary`: token credit of the run that starts
at byte `c`, and the remaining bytes after the run. -/
def fbConsume (c : Nat) (cs : List Nat) : Nat × List Nat :=
  match categorize c with
  | .ws => (1, cs.dropWhile (fun b => categorize b == .ws))
  | .newline => (1, cs)
  | .letter =>
      (wordTokens (1 + (cs.takeWhile isWordByte).length),
        cs.dropWhile isWordByte)
  | .digit =>
      (numTokens (1 + (cs.takeWhile isNumByteFB).length),
        cs.dropWhile isNumByteFB)
  | .punct => (1, punctRest isPairFB c cs)
  | .other => (1, cs)

theorem fbConsume_length_le (c : Nat) (cs : List Nat) :
    (fbConsume c cs).2.length ≤ cs.length := by
  unfold fbConsume
  split
  · exact Tokenizer.dropWhile_length_le _ _
  · exact Nat.le_refl _
  · exact Tokenizer.dropWhile_length_le _ _
  · exact Tokenizer.dropWhile_length_le _ _
  · exact punctRest_length_le _ _ _
  · exact Nat.le_refl _

/-- The `while (i < len && token_count < target)` loop of `find_boundary`
(lines 269–350).  `last_good_pos` is set to the current position at the top of
every iteration, before the run is consumed. -/
def fbAux : List Nat → Nat → Nat → Nat → Nat → Nat
  | [], _, _, _, lastGood => lastGood
  | c :: cs, pos, tc, target, lastGood =>
    if tc < target then
      let r := fbConsume c cs
      fbAux r.2 (pos + ((c :: cs).length - r.2.length)) (tc + r.1) target pos
    else lastGood
termination_by l _ _ _ _ => l.length
decreasing_by
  simp only [List.length_cons]
  exact Nat.lt_succ_of_le (fbConsume_length_le _ _)

/-- `Tokenizer::Impl::find_boundary` (lines 261–353): returns 0 for empty text
or target 0, otherwise runs the scan loop and returns `last_good_pos`. -/
def find_boundary (text : List Nat) (target : Nat) : Nat :=
  if text.isEmpty || target == 0 then 0
  else fbAux text 0 0 target 0

/-- `Tokenizer::find_token_boundary` delegates to `find_boundary`. -/
def find_token_boundary (text : List Nat) (target : Nat) : Nat :=
  find_boundary text target

end Tokenizer

/-- ASCII byte list of a string, for readable concrete inputs. -/
def strBytes (s : String) : List Nat :=
  s.data.map (fun c => c.toNat)

namespace Tokenizer

/-- Loop invariant for `fbAux`: the returned `last_good_pos` is always the
start offset of some run, hence strictly below the text length whenever the
absolute position bookkeeping is consistent and the incoming `lastGood`
already is. -/
theorem fbAux_lt_length_aux :
    ∀ (n : Nat) (rem : List Nat), rem.length ≤ n →
      ∀ (pos tc target lastGood L : Nat),
        pos + rem.length = L → lastGood < L →
        fbAux rem pos tc target lastGood < L := by
  intro n
  induction n with
  | zero =>
    intro rem hlen pos tc target lastGood L h hl
    match rem with
    | [] => simpa [fbAux] using hl
  | succ k ih =>
    intro rem hlen pos tc target lastGood L h hl
    match rem with
    | [] => simpa [fbAux] using hl
    | c :: cs =>
      rw [fbAux]
      by_cases hlt : tc < target
      · rw [if_pos hlt]
        show fbAux (fbConsume c cs).2
            (pos + ((c :: cs).length - (fbConsume c cs).2.length))
            (tc + (fbConsume c cs).1) target pos < L
        have hcons : (fbConsume c cs).2.length ≤ cs.length :=
          fbConsume_length_le c cs
        simp only [List.length_cons] at hlen h
        refine ih (fbConsume c cs).2 (by omega) _ _ _ _ L ?_ ?_
        · simp only [List.length_cons]
          omega
        · omega
      · rw [if_neg hlt]
        exact hl

theorem fbAux_lt_length (rem : List Nat) (pos tc target lastGood L : Nat)
    (h : pos + rem.length = L) (hl : lastGood < L) :
    fbAux rem pos tc target lastGood < L :=
  fbAux_lt_length_aux rem.length rem (Nat.le_refl _) pos tc target lastGood L h hl

end Tokenizer

namespace Hasher

/-! ## File hasher (src/native/indexer/src/hasher.cpp)

`XXHash64::hash` over a byte list.  All 64-bit machine arithmetic is `Nat`
arithmetic reduced modulo `2^64`; `read64`/`read32` are the little-endian
loads done by `memcpy` on a little-endian target. -/

def PRIME64_1 : Nat := 0x9E3779B185EBCA87
def PRIME64_2 : Nat := 0xC2B2AE3D27D4EB4F
def PRIME64_3 : Nat := 0x165667B19E3779F9
def PRIME64_4 : Nat := 0x85EBCA77C2B2AE63
def PRIME64_5 : Nat := 0x27D4EB2F165667C5

def add64 (a b : Nat) : Nat := (a + b) % 2 ^ 64

def sub64 (a b : Nat) : Nat := (a + 2 ^ 64 - b % 2 ^ 64) % 2 ^ 64

def mul64 (a b : Nat) : Nat := (a * b) % 2 ^ 64

def rotl64 (x r : Nat) : Nat :=
  ((x <<< r) % 2 ^ 64) ||| (x >>> (64 - r))

/-- Little-endian load of the first 8 bytes. -/
def read64 (l : List Nat) : Nat :=
  (l.take 8).foldr (fun b acc => b + 256 * acc) 0

/-- Little-endian load of the first 4 bytes. -/
def read32 (l : List Nat) : Nat :=
  (l.take 4).foldr (fun b acc => b + 256 * acc) 0

/-- `XXHash64::round`. -/
def xxhRound (acc input : Nat) : Nat :=
  mul64 (rotl64 (add64 acc (mul64 input PRIME64_2)) 31) PRIME64_1

/-- `XXHash64::merge_round`. -/
def xxhMergeRound (acc v : Nat) : Nat :=
  add64 (mul64 (acc ^^^ xxhRound 0 v) PRIME64_1) PRIME64_4

/-- The 32-byte stripe loop (`do { v1 = round(...); ... } while (p <= limit)`),
which keeps consuming stripes while at least 32 bytes remain. -/
def xxhStripes (v1 v2 v3 v4 : Nat) (l : List Nat) :
    (Nat × Nat × Nat × Nat) × List Nat :=
  if h : 32 ≤ l.length then
    xxhStripes (xxhRound v1 (read64 l)) (xxhRound v2 (read64 (l.drop 8)))
      (xxhRound v3 (read64 (l.drop 16))) (xxhRound v4 (read64 (l.drop 24)))
      (l.drop 32)
  else ((v1, v2, v3, v4), l)
termination_by l.length
decreasing_by
  simp only [List.length_drop]
  omega

/-- Tail loop over remaining 8-byte words. -/
def xxhTail8 (h64 : Nat) (l : List Nat) : Nat × List Nat :=
  if h : 8 ≤ l.length then
    xxhTail8 (add64 (mul64 (rotl64 (h64 ^^^ xxhRound 0 (read64 l)) 27) PRIME64_1)
      PRIME64_4) (l.drop 8)
  else (h64, l)
termination_by l.length
decreasing_by
  simp only [List.length_drop]
  omega

/-- Tail loop over remaining 4-byte words. -/
def xxhTail4 (h64 : Nat) (l : List Nat) : Nat × List Nat :=
  if h : 4 ≤ l.length then
    xxhTail4 (add64 (mul64 (rotl64 (h64 ^^^ mul64 (read32 l) PRIME64_1) 23)
      PRIME64_2) PRIME64_3) (l.drop 4)
  else (h64, l)
termination_by l.length
decreasing_by
  simp only [List.length_drop]
  omega

/-- Tail loop over remaining single bytes. -/
def xxhTail1 (h64 : Nat) : List Nat → Nat
  | [] => h64
  | b :: bs => xxhTail1 (mul64 (rotl64 (h64 ^^^ mul64 b PRIME64_5) 11) PRIME64_1) bs

/-- Final avalanche mixer. -/
def avalanche (h : Nat) : Nat :=
  let h1 := h ^^^ (h >>> 33)
  let h2 := mul64 h1 PRIME64_2
  let h3 := h2 ^^^ (h2 >>> 29)
  let h4 := mul64 h3 PRIME64_3
  h4 ^^^ (h4 >>> 32)

/-- `XXHash64::hash(data, len, seed)` (hasher.cpp lines 32–87). -/
def XXHash64_hash (data : List Nat) (seed : Nat) : Nat :=
  let len := data.length
  let (h0, rest) :=
    if 32 ≤ len then
      let v1 := add64 seed (add64 PRIME64_1 PRIME64_2)
      let v2 := add64 seed PRIME64_2
      let v3 := seed % 2 ^ 64
      let v4 := sub64 seed PRIME64_1
      let (vs, rest) := xxhStripes v1 v2 v3 v4 data
      let (w1, w2, w3, w4) := vs
      let m0 := add64 (add64 (rotl64 w1 1) (rotl64 w2 7))
        (add64 (rotl64 w3 12) (rotl64 w4 18))
      let m1 := xxhMergeRound m0 w1
      let m2 := xxhMergeRound m1 w2
      let m3 := xxhMergeRound m2 w3
      (xxhMergeRound m3 w4, rest)
    else (add64 seed PRIME64_5, data)
  let h1 := add64 h0 len
  let (h2, r8) := xxhTail8 h1 rest
  let (h3, r4) := xxhTail4 h2 r8
  avalanche (xxhTail1 h3 r4)

/-- `FileHasher::hash_string` (hasher.cpp lines 302–304): one-shot xxHash64 of
the string bytes with the default seed 0. -/
def hash_string (content : List Nat) : Nat :=
  XXHash64_hash content 0

end Hasher

namespace Merkle

/-! ## Merkle tree (src/native/indexer/src/merkle.cpp)

Node names are byte strings (`List Nat`); a node's `children` is the
`std::map<std::string, MerkleNode>` of the source, modeled as a list kept
sorted by strictly increasing name (byte-wise `memcmp` order, which is what
`std::string::operator<` uses).  `hash` is the stored (possibly stale) hash
field. -/

inductive MNode where
  | node (name : List Nat) (hash : Nat) (is_file : Bool) (children : List MNode)

def MNode.name : MNode → List Nat
  | .node n _ _ _ => n

def MNode.hash : MNode → Nat
  | .node _ h _ _ => h

def MNode.is_file : MNode → Bool
  | .node _ _ f _ => f

def MNode.children : MNode → List MNode
  | .node _ _ _ cs => cs

/-- Byte-wise lexicographic order, i.e. `std::string::operator<`. -/
def byteLt : List Nat → List Nat → Bool
  | [], [] => false
  | [], _ :: _ => true
  | _ :: _, [] => false
  | a :: as, b :: bs => if a < b then true else if b < a then false else byteLt as bs

/-- `combine_hashes` (merkle.cpp lines 21–25):
`h1 XOR (h2 + PRIME + (h1 << 6) + (h1 >> 2))` in 64-bit arithmetic. -/
def combine_hashes (h1 h2 : Nat) : Nat :=
  h1 ^^^ ((h2 + 0x9E3779B185EBCA87 + (h1 <<< 6) + (h1 >>> 2)) % 2 ^ 64)

/-- `Impl::split_path` (lines 49–68): split on `/` (47) or `\` (92), dropping
empty components. -/
def split_path (path : List Nat) : List (List Nat) :=
  let rec go (acc : List Nat) : List Nat → List (List Nat)
    | [] => if acc.isEmpty then [] else [acc.reverse]
    | c :: cs =>
      if c == 47 || c == 92 then
        if acc.isEmpty then go [] cs else acc.reverse :: go [] cs
      else go (c :: acc) cs
  go [] path

mutual

/-- `Impl::get_or_create_node` followed by the leaf mutation of `add_file`
(lines 73–91 and 290–295): walk the components, creating missing nodes with
hash 0, and set `hash`/`is_file` on the final node. -/
def addFileNode : List (List Nat) → Nat → MNode → MNode
  | [], h, .node n _ _ ch => .node n h true ch
  | c :: rest, h, .node n h0 f0 ch => .node n h0 f0 (addIntoChildren c rest h ch)

/-- Sorted-map insertion used by `get_or_create_node`: descend into the child
named `c` if present, otherwise create it (at its sorted position, as
`std::map` does). -/
def addIntoChildren : List Nat → List (List Nat) → Nat → List MNode → List MNode
  | c, rest, h, [] => [addFileNode rest h (.node c 0 false [])]
  | c, rest, h, x :: xs =>
    if x.name = c then addFileNode rest h x :: xs
    else if byteLt c x.name then addFileNode rest h (.node c 0 false []) :: x :: xs
    else x :: addIntoChildren c rest h xs

end

/-- `std::map::erase` on the sorted children list. -/
def eraseChild (c : List Nat) : List MNode → List MNode
  | [] => []
  | x :: xs => if x.name = c then xs else x :: eraseChild c xs

mutual

/-- `Impl::remove_node` (lines 142–157): walk to the parent of the last
component and erase that child; missing intermediate nodes make it a no-op. -/
def removeNode : List (List Nat) → MNode → MNode
  | [], n => n
  | [c], .node n h0 f0 ch => .node n h0 f0 (eraseChild c ch)
  | c :: rest, .node n h0 f0 ch => .node n h0 f0 (descendRemove c rest ch)

def descendRemove : List Nat → List (List Nat) → List MNode → List MNode
  | _, _, [] => []
  | c, rest, x :: xs =>
    if x.name = c then removeNode rest x :: xs
    else x :: descendRemove c rest xs

end

mutual

/-- `Impl::compute_node_hash` (lines 96–119): a file node keeps its stored
hash; a directory node left-folds `combine_hashes` over its children's
recomputed hashes in sorted name order (the children list is already sorted)
and stores the result. -/
def computeNode : MNode → MNode
  | .node n h true ch => .node n h true ch
  | .node n _ false ch =>
    let ch' := computeChildren ch
    .node n (ch'.foldl (fun acc child => combine_hashes acc child.hash) 0) false ch'

def computeChildren : List MNode → List MNode
  | [] => []
  | x :: xs => computeNode x :: computeChildren xs

end

/-- The `MerkleTree` object: root node plus the `dirty` memoization flag. -/
structure MTree where
  root : MNode
  dirty : Bool

/-- A fresh tree: empty unnamed directory root, not dirty. -/
def emptyTree : MTree :=
  ⟨.node [] 0 false [], false⟩

/-- `MerkleTree::add_file` (lines 290–295). -/
def add_file (t : MTree) (path : List Nat) (content_hash : Nat) : MTree :=
  ⟨addFileNode (split_path path) content_hash t.root, true⟩

/-- `MerkleTree::remove_file` (lines 297–300). -/
def remove_file (t : MTree) (path : List Nat) : MTree :=
  ⟨removeNode (split_path path) t.root, true⟩

/-- The value returned by `MerkleTree::root_hash` (lines 308–314): recompute
bottom-up when dirty, otherwise return the stored root hash. -/
def root_hash (t : MTree) : Nat :=
  if t.dirty then (computeNode t.root).hash else t.root.hash

/-- The tree state after a `root_hash` call (the memoizing mutation behind the
`const` interface). -/
def rootHashStep (t : MTree) : MTree :=
  if t.dirty then ⟨computeNode t.root, false⟩ else t

/-- Little-endian u32. -/
def u32le (n : Nat) : List Nat :=
  [n % 256, n / 2 ^ 8 % 256, n / 2 ^ 16 % 256, n / 2 ^ 24 % 256]

/-- Little-endian u64. -/
def u64le (n : Nat) : List Nat :=
  [n % 256, n / 2 ^ 8 % 256, n / 2 ^ 16 % 256, n / 2 ^ 24 % 256,
   n / 2 ^ 32 % 256, n / 2 ^ 40 % 256, n / 2 ^ 48 % 256, n / 2 ^ 56 % 256]

mutual

/-- `Impl::serialize_node` (lines 216–241): `(name_len u32, name, hash u64,
is_file u8, child_count u32, children...)`, little-endian. -/
def serializeNode : MNode → List Nat
  | .node n h f ch =>
    u32le n.length ++ n ++ u64le h ++ [if f then 1 else 0] ++
      u32le ch.length ++ serializeChildren ch

def serializeChildren : List MNode → List Nat
  | [] => []
  | x :: xs => serializeNode x ++ serializeChildren xs

end

/-- `MerkleTree::serialize` (lines 327–345): magic `"MRKL"`, version 1, then
the recursive root record. -/
def serialize (t : MTree) : List Nat :=
  u32le 0x4D524B4C ++ u32le 1 ++ serializeNode t.root

/-- Read a little-endian u32; `none` models the truncation checks
(`data + 4 > end`) of `deserialize_node`. -/
def readU32 (l : List Nat) : Option (Nat × List Nat) :=
  match l with
  | b0 :: b1 :: b2 :: b3 :: rest =>
    some (b0 + 2 ^ 8 * b1 + 2 ^ 16 * b2 + 2 ^ 24 * b3, rest)
  | _ => none

/-- Read a little-endian u64 with truncation check. -/
def readU64 (l : List Nat) : Option (Nat × List Nat) :=
  match l with
  | b0 :: b1 :: b2 :: b3 :: b4 :: b5 :: b6 :: b7 :: rest =>
    some (b0 + 2 ^ 8 * b1 + 2 ^ 16 * b2 + 2 ^ 24 * b3 + 2 ^ 32 * b4 +
      2 ^ 40 * b5 + 2 ^ 48 * b6 + 2 ^ 56 * b7, rest)
  | _ => none

/-- Take exactly `n` bytes or fail (the `data + name_len > end` check). -/
def readBytes (n : Nat) (l : List Nat) : Option (List Nat × List Nat) :=
  if n ≤ l.length then some (l.take n, l.drop n) else none

/-- `std::map` keyed insertion used when deserializing children
(`node->children[child->name] = std::move(child)`). -/
def insertChildNode (x : MNode) : List MNode → List MNode
  | [] => [x]
  | y :: ys =>
    if y.name = x.name then x :: ys
    else if byteLt x.name y.name then x :: y :: ys
    else y :: insertChildNode x ys

mutual

/-- `Impl::deserialize_node` (lines 246–283), with a fuel bound on recursion
depth; every truncated read yields `none` exactly as the source returns
`nullptr`. -/
def dNode : Nat → List Nat → Option (MNode × List Nat)
  | 0, _ => none
  | fuel + 1, data =>
    match readU32 data with
    | none => none
    | some (nameLen, d1) =>
      match readBytes nameLen d1 with
      | none => none
      | some (name, d2) =>
        match readU64 d2 with
        | none => none
        | some (h, d3) =>
          match d3 with
          | [] => none
          | fb :: d4 =>
            match readU32 d4 with
            | none => none
            | some (childCount, d5) =>
              match dChildren fuel childCount [] d5 with
              | none => none
              | some (ch, d6) => some (.node name h (fb != 0) ch, d6)

/-- The child-reading loop of `deserialize_node`: children are parsed left to
right and keyed into the map as they arrive. -/
def dChildren : Nat → Nat → List MNode → List Nat → Option (List MNode × List Nat)
  | _, 0, acc, data => some (acc, data)
  | fuel, k + 1, acc, data =>
    match dNode fuel data with
    | none => none
    | some (child, rest) => dChildren fuel k (insertChildNode child acc) rest

end

/-- `MerkleTree::deserialize` (lines 347–373): check length ≥ 8, magic and
version, then parse the root record; on success install the new root with
`dirty = false`, on any failure leave the tree untouched. -/
def deserialize (t : MTree) (data : List Nat) : Bool × MTree :=
  if data.length < 8 then (false, t)
  else
    match readU32 data with
    | none => (false, t)
    | some (magic, d1) =>
      if magic ≠ 0x4D524B4C then (false, t)
      else
        match readU32 d1 with
        | none => (false, t)
        | some (version, d2) =>
          if version ≠ 1 then (false, t)
          else
            match dNode (d2.length + 1) d2 with
            | none => (false, t)
            | some (root, _) => (true, ⟨root, false⟩)

end Merkle

namespace FileIndexImpl

/-! ## FileIndex persistence (src/native/indexer/src/indexer.cpp lines 145–233)

`FileIndex::load` reads with `std::ifstream::read` and never rechecks the
stream state after validating magic/version.  The stream model: a failed
unformatted read sets a fail flag and subsequent reads are no-ops; a partial
read into a zero-initialized buffer (`std::string::resize` /
`std::vector(n)`) stores the available bytes and leaves the zero tail.  A
scalar read that fails leaves its destination indeterminate in C++; that
unspecified value is modeled as 0 (no theorem below depends on it). -/

structure FileEntryRec where
  path : List Nat
  content_hash : Nat
  size : Nat
  mtime : Nat
  language : Nat
  is_indexed : Bool
deriving DecidableEq, Repr

structure IndexState where
  entries : List FileEntryRec
  merkle : Merkle.MTree

structure BStream where
  data : List Nat
  ok : Bool

/-- Unformatted read of `n` bytes into a zero-initialized buffer of size `n`. -/
def readPadded (n : Nat) (s : BStream) : List Nat × BStream :=
  if s.ok then
    if n ≤ s.data.length then (s.data.take n, ⟨s.data.drop n, true⟩)
    else (s.data ++ List.replicate (n - s.data.length) 0, ⟨[], false⟩)
  else (List.replicate n 0, s)

/-- Unformatted read of a u32 scalar. -/
def readScalar32 (s : BStream) : Nat × BStream :=
  if s.ok ∧ 4 ≤ s.data.length then
    (Merkle.readU32 s.data |>.getD (0, []) |>.1, ⟨s.data.drop 4, true⟩)
  else (0, ⟨s.data, false⟩)

/-- Unformatted read of a u64 scalar. -/
def readScalar64 (s : BStream) : Nat × BStream :=
  if s.ok ∧ 8 ≤ s.data.length then
    (Merkle.readU64 s.data |>.getD (0, []) |>.1, ⟨s.data.drop 8, true⟩)
  else (0, ⟨s.data, false⟩)

/-- Unformatted read of one byte. -/
def readScalar8 (s : BStream) : Nat × BStream :=
  match s.data, s.ok with
  | b :: rest, true => (b, ⟨rest, true⟩)
  | _, _ => (0, ⟨s.data, false⟩)

/-- `std::unordered_map` keyed insertion: `entries[entry.path] = entry`. -/
def insertEntry (e : FileEntryRec) : List FileEntryRec → List FileEntryRec
  | [] => [e]
  | x :: xs => if x.path = e.path then e :: xs else x :: insertEntry e xs

/-- The entry-reading loop of `FileIndex::load` (lines 203–221). -/
def readEntries : Nat → BStream → List FileEntryRec → List FileEntryRec × BStream
  | 0, s, acc => (acc, s)
  | k + 1, s, acc =>
    let (pathLen, s1) := readScalar32 s
    let (path, s2) := readPadded pathLen s1
    let (h, s3) := readScalar64 s2
    let (sz, s4) := readScalar64 s3
    let (mt, s5) := readScalar64 s4
    let (lang, s6) := readScalar8 s5
    let (indexed, s7) := readScalar8 s6
    readEntries k s7 (insertEntry ⟨path, h, sz, mt, lang, indexed ≠ 0⟩ acc)

/-- `FileIndex::load` (lines 184–233): validate magic/version, then clear the
entry map, read `count` entries, read the merkle blob and hand it to
`MerkleTree::deserialize` (whose return value the source ignores), and return
`true` unconditionally — the stream state is never checked after the header. -/
def load (data : List Nat) (st : IndexState) : Bool × IndexState :=
  let s0 : BStream := ⟨data, true⟩
  let (magic, s1) := readScalar32 s0
  let (version, s2) := readScalar32 s1
  if magic ≠ 0x4649444E ∨ version ≠ 1 then (false, st)
  else
    let (count, s3) := readScalar32 s2
    let (entries, s4) := readEntries count s3 []
    let (merkleSize, s5) := readScalar32 s4
    let (merkleData, _) := readPadded merkleSize s5
    let merkle' := (Merkle.deserialize st.merkle merkleData).2
    (true, ⟨entries, merkle'⟩)

end FileIndexImpl

namespace Indexer

/-! ## Indexer diff (src/native/indexer/src/indexer.cpp lines 412–553) -/

structure FE where
  path : String
  content_hash : Nat
deriving DecidableEq, Repr

inductive ChangeType where
  | ADDED | MODIFIED | DELETED | RENAMED
deriving DecidableEq, Repr

structure FileChange where
  type : ChangeType
  path : String
  old_path : String
  old_hash : Nat
  new_hash : Nat
deriving DecidableEq, Repr

/-- Append `path` to the bucket of `hash`, creating the bucket on first use
(`old_hashes[entry.content_hash].push_back(entry.path)`). -/
def bucketAdd (m : List (Nat × List String)) (hash : Nat) (path : String) :
    List (Nat × List String) :=
  match m with
  | [] => [(hash, [path])]
  | (h, b) :: rest =>
    if h = hash then (h, b ++ [path]) :: rest
    else (h, b) :: bucketAdd rest hash path

/-- The hash → paths multimap built by `detect_renames` (lines 419–437),
skipping entries whose `content_hash` is 0. -/
def buildHashMap (files : List FE) : List (Nat × List String) :=
  files.foldl (fun m e => if e.content_hash ≠ 0 then bucketAdd m e.content_hash e.path else m) []

def bucketFind (m : List (Nat × List String)) (hash : Nat) : Option (List String) :=
  match m with
  | [] => none
  | (h, b) :: rest => if h = hash then some b else bucketFind rest hash

/-- `Indexer::detect_renames` (lines 412–465): for every hash present on both
sides, every old path that no longer exists is paired with **every** new path
that did not exist before; nothing is marked as consumed. -/
def detect_renames (old_files new_files : List FE) : List FileChange :=
  let oldHashes := buildHashMap old_files
  let newHashes := buildHashMap new_files
  let oldPaths := old_files.map (·.path)
  let newPaths := new_files.map (·.path)
  oldHashes.foldl (fun acc hb =>
    match bucketFind newHashes hb.1 with
    | none => acc
    | some newBucket =>
      hb.2.foldl (fun acc2 op =>
        if newPaths.contains op then acc2
        else
          acc2 ++ (newBucket.filter (fun np => ¬ oldPaths.contains np)).map
            (fun np => ⟨.RENAMED, np, op, hb.1, hb.1⟩)) acc) []

/-- Path → hash lookup map (`std::unordered_map<std::string, const FileEntry*>`,
keyed assignment overwrites). -/
def pathMapInsert (m : List (String × Nat)) (p : String) (h : Nat) :
    List (String × Nat) :=
  match m with
  | [] => [(p, h)]
  | (q, g) :: rest =>
    if q = p then (p, h) :: rest else (q, g) :: pathMapInsert rest p h

def buildPathMap (files : List FE) : List (String × Nat) :=
  files.foldl (fun m e => pathMapInsert m e.path e.content_hash) []

def pathMapFind (m : List (String × Nat)) (p : String) : Option Nat :=
  match m with
  | [] => none
  | (q, g) :: rest => if q = p then some g else pathMapFind rest p

structure DiffResult where
  changes : List FileChange
  added_count : Nat
  modified_count : Nat
  deleted_count : Nat
  renamed_count : Nat
deriving DecidableEq, Repr

/-- `Indexer::diff` (lines 467–553): renames first (when enabled), then the
added/modified pass over the new map skipping renamed new paths, then the
deleted pass over the old map skipping renamed old paths. -/
def diff (detectRenamesCfg : Bool) (old_scan new_scan : List FE) : DiffResult :=
  let oldMap := buildPathMap old_scan
  let newMap := buildPathMap new_scan
  let renames := if detectRenamesCfg then detect_renames old_scan new_scan else []
  let renamedOldPaths := renames.map (·.old_path)
  let renamedNewPaths := renames.map (·.path)
  let afterAddMod :=
    newMap.foldl (fun (r : DiffResult) pe =>
      if renamedNewPaths.contains pe.1 then r
      else
        match pathMapFind oldMap pe.1 with
        | none =>
          { r with changes := r.changes ++ [⟨.ADDED, pe.1, "", 0, pe.2⟩],
                   added_count := r.added_count + 1 }
        | some oldHash =>
          if oldHash ≠ pe.2 then
            { r with changes := r.changes ++ [⟨.MODIFIED, pe.1, "", oldHash, pe.2⟩],
                     modified_count := r.modified_count + 1 }
          else r)
      ⟨renames, 0, 0, 0, renames.length⟩
  oldMap.foldl (fun (r : DiffResult) pe =>
    if renamedOldPaths.contains pe.1 then r
    else
      match pathMapFind newMap pe.1 with
      | none =>
        { r with changes := r.changes ++ [⟨.DELETED, pe.1, "", pe.2, 0⟩],
                 deleted_count := r.deleted_count + 1 }
      | some _ => r) afterAddMod

end Indexer

namespace Boundaries

/-! ## Boundary detector (src/native/chunker/src/boundaries.cpp)

`detect_typescript` (lines 404–459) first runs the JavaScript detector (which
skips strings and comments) and then makes a **second pass** over the whole
source (lines 414–451) that anchors `interface` / `enum` declaration regexes
at every byte position — with no string or comment skipping at all.  That
second pass is embedded here, together with `Impl::skip_string`
(lines 62–74), which is what the JavaScript pass uses to delimit string
literals. -/

/-- `\s` of `std::regex`. -/
def isRegexSpace (c : Nat) : Bool :=
  c == 32 || (9 ≤ c && c ≤ 13)

/-- `[a-zA-Z_$]`. -/
def isIdentStart (c : Nat) : Bool :=
  (65 ≤ c && c ≤ 90) || (97 ≤ c && c ≤ 122) || c == 95 || c == 36

/-- `[a-zA-Z0-9_$]`. -/
def isIdentChar (c : Nat) : Bool :=
  isIdentStart c || (48 ≤ c && c ≤ 57)

/-- Anchored match of `kw\s+([a-zA-Z_$][a-zA-Z0-9_$]*)` against the head of
`l` (`std::regex_constants::match_continuous`): returns the total match length
and the captured name. -/
def matchKeywordDecl (kw : List Nat) (l : List Nat) : Option (Nat × List Nat) :=
  if l.take kw.length = kw then
    let rest := l.drop kw.length
    let a := (rest.takeWhile isRegexSpace).length
    if a = 0 then none
    else
      let rest2 := rest.drop a
      match rest2.head? with
      | some c =>
        if isIdentStart c then
          some (kw.length + a + (rest2.takeWhile isIdentChar).length,
            rest2.takeWhile isIdentChar)
        else none
      | none => none
  else none

/-- `interface` as bytes. -/
def kwInterfaceB : List Nat := strBytes "interface"

/-- `enum` as bytes. -/
def kwEnumB : List Nat := strBytes "enum"

inductive TsKind where
  | INTERFACE | ENUM
deriving DecidableEq, Repr

theorem matchKeywordDecl_pos (kw l : List Nat) (len : Nat) (name : List Nat)
    (hkw : kw ≠ []) (h : matchKeywordDecl kw l = some (len, name)) :
    0 < len := by
  have hklen : kw.length ≠ 0 := fun hz => hkw (List.eq_nil_of_length_eq_zero hz)
  unfold matchKeywordDecl at h
  simp only [] at h
  split at h
  · split at h
    · exact absurd h (by simp)
    · split at h
      · split at h
        · simp only [Option.some.injEq, Prod.mk.injEq] at h
          omega
        · exact absurd h (by simp)
      · exact absurd h (by simp)
  · exact absurd h (by simp)

/-- The TypeScript-specific scan loop of `detect_typescript` (lines 414–451):
at every byte offset, try the `interface` regex and then the `enum` regex
against a 200-byte look-ahead window; on a match emit a boundary at that
offset and jump past the match, otherwise advance one byte.  Nothing skips
string literals or comments here. -/
def tsExtraScan : List Nat → Nat → List (Nat × TsKind × List Nat)
  | [], _ => []
  | c :: cs, pos =>
    match matchKeywordDecl kwInterfaceB ((c :: cs).take 200) with
    | some (len, name) =>
      (pos, .INTERFACE, name) :: tsExtraScan (cs.drop (len - 1)) (pos + len)
    | none =>
      match matchKeywordDecl kwEnumB ((c :: cs).take 200) with
      | some (len, name) =>
        (pos, .ENUM, name) :: tsExtraScan (cs.drop (len - 1)) (pos + len)
      | none => tsExtraScan cs (pos + 1)
termination_by l _ => l.length
decreasing_by
  all_goals simp only [List.length_drop, List.length_cons]
  all_goals omega

/-- Byte offsets at which the TypeScript-specific pass emits a declaration
boundary. -/
def tsExtraOffsets (source : List Nat) : List Nat :=
  (tsExtraScan source 0).map (·.1)

/-- `Impl::skip_string` (lines 62–74): advance past the opening quote, then
consume, handling backslash escapes, until the closing quote. -/
def skipStringAux (quote : Nat) : List Nat → Nat → Nat
  | [], pos => pos
  | c :: cs, pos =>
    if c == 92 && !cs.isEmpty then skipStringAux quote (cs.drop 1) (pos + 2)
    else if c == quote then pos + 1
    else skipStringAux quote cs (pos + 1)
termination_by l _ => l.length
decreasing_by
  · simp only [List.length_drop, List.length_cons]
    omega
  · simp only [List.length_cons]
    omega

/-- `skip_string(source, pos, quote)`: the returned position is one past the
closing quote, so bytes in `(pos, result - 1)` are the literal's interior. -/
def skip_string (source : List Nat) (pos quote : Nat) : Nat :=
  skipStringAux quote (source.drop (pos + 1)) (pos + 1)

end Boundaries

namespace Merkle

/-! ### Well-formedness of trees as `std::map` guarantees it

In the C++ implementation children live in a `std::map<std::string, ...>`, so
sibling names are strictly increasing in byte order and unique, string sizes
and child counts fit in the `uint32_t` fields the serializer writes, and every
stored hash is a `uint64_t`.  Trees reachable through the public API satisfy
this by construction; the predicate states it for the Lean model. -/

def namesSorted : List MNode → Bool
  | [] => true
  | [_] => true
  | x :: y :: rest => byteLt x.name y.name && namesSorted (y :: rest)

mutual

def wfNode : MNode → Bool
  | .node name hash _ ch =>
    decide (name.length < 2 ^ 32) && decide (hash < 2 ^ 64) &&
      decide (ch.length < 2 ^ 32) && (name.all (fun b => b < 256)) &&
      namesSorted ch && wfChildren ch

def wfChildren : List MNode → Bool
  | [] => true
  | x :: xs => wfNode x && wfChildren xs

end

end Merkle

/-! ## Claim theorems -/

/-- C1: evaluation of `Indexer::detect_renames` at old files `a.txt`,`b.txt`
(both hash 5) and new files `c.txt`,`d.txt` (both hash 5).  The claim says
each old path and each new path is consumed at most once across Renamed
records; the code instead emits the full cross product of the bucket — four
records, with `a.txt` appearing as `old_path` twice and `c.txt` appearing as
`path` twice. -/
theorem C1_detect_renames_consumes_paths_twice :
    (Indexer.detect_renames [⟨"a.txt", 5⟩, ⟨"b.txt", 5⟩]
        [⟨"c.txt", 5⟩, ⟨"d.txt", 5⟩]).length = 4 ∧
    ((Indexer.detect_renames [⟨"a.txt", 5⟩, ⟨"b.txt", 5⟩]
        [⟨"c.txt", 5⟩, ⟨"d.txt", 5⟩]).filter
        (fun ch => ch.old_path == "a.txt")).length = 2 ∧
    ((Indexer.detect_renames [⟨"a.txt", 5⟩, ⟨"b.txt", 5⟩]
        [⟨"c.txt", 5⟩, ⟨"d.txt", 5⟩]).filter
        (fun ch => ch.path == "c.txt")).length = 2 := by
  decide

/-- C2 counterexample: on the one-byte text `"a"`, `count_tokens` is 1 but
`find_token_boundary("a", 1)` is 0, not the text size 1 — the claimed
identity `find_token_boundary(s, count_tokens(s)) = s.size` is false. -/
theorem C2_find_token_boundary_not_size :
    Tokenizer.count_tokens (strBytes "a") = 1 ∧
    Tokenizer.find_token_boundary (strBytes "a")
      (Tokenizer.count_tokens (strBytes "a")) = 0 ∧
    (strBytes "a").length = 1 ∧
    Tokenizer.find_token_boundary (strBytes "a")
      (Tokenizer.count_tokens (strBytes "a")) ≠ (strBytes "a").length := by
  refine ⟨?_, ?_, ?_, ?_⟩ <;>
    simp [Tokenizer.find_token_boundary, Tokenizer.find_boundary, Tokenizer.fbAux,
      Tokenizer.fbConsume, Tokenizer.count_tokens, Tokenizer.estimate_tokens,
      Tokenizer.categorize, Tokenizer.isSpaceByte, Tokenizer.isAlphaByte,
      Tokenizer.isDigitByte, Tokenizer.isPunctByte, Tokenizer.isWordByte,
      Tokenizer.wordTokens, strBytes]

/-- C2 amended: `find_boundary` returns `last_good_pos`, the start offset of
the last run the scan loop touched, so for every nonempty text and every
target it returns an offset strictly below the text size (never `s.size`);
in particular `find_token_boundary(s, count_tokens(s)) < s.size`. -/
theorem C2_find_token_boundary_below_size (s : List Nat) (target : Nat)
    (hs : s ≠ []) :
    Tokenizer.find_token_boundary s target < s.length := by
  have hpos : 0 < s.length := List.length_pos.mpr hs
  unfold Tokenizer.find_token_boundary Tokenizer.find_boundary
  split
  · exact hpos
  · exact Tokenizer.fbAux_lt_length s 0 0 target 0 s.length (by omega) hpos

/-- C2 amended, witness at the text `"hello == world"` with target 3. -/
theorem C2_find_token_boundary_below_size_witness :
    strBytes "hello == world" ≠ [] ∧
    Tokenizer.find_token_boundary (strBytes "hello == world") 3 <
      (strBytes "hello == world").length :=
  ⟨by simp [strBytes],
    C2_find_token_boundary_below_size (strBytes "hello == world") 3
      (by simp [strBytes])⟩

/-- C3 counterexample: `add_file("d/f", 5)` then `remove_file("d/f")` on a
fresh tree leaves the empty intermediate directory `d` in place, and the root
hash becomes `combine(0, 0) = PRIME = 0x9E3779B185EBCA87`, not the fresh
tree's root hash 0 — so the claimed equality fails when the path has
directory components. -/
theorem C3_add_remove_root_hash_counterexample :
    Merkle.root_hash
      (Merkle.remove_file
        (Merkle.add_file Merkle.emptyTree (strBytes "d/f") 5)
        (strBytes "d/f")) = 0x9E3779B185EBCA87 ∧
    Merkle.root_hash Merkle.emptyTree = 0 ∧
    (0x9E3779B185EBCA87 : Nat) ≠ 0 := by
  refine ⟨?_, ?_, by decide⟩ <;>
    simp [Merkle.root_hash, Merkle.remove_file, Merkle.add_file, Merkle.emptyTree,
      Merkle.split_path, Merkle.split_path.go, Merkle.addFileNode,
      Merkle.addIntoChildren, Merkle.removeNode, Merkle.descendRemove,
      Merkle.eraseChild, Merkle.computeNode, Merkle.computeChildren,
      Merkle.combine_hashes, Merkle.MNode.hash, Merkle.MNode.name, Merkle.byteLt,
      strBytes]

/-- C4 counterexample: serialize a tree that is dirty (pending un-recomputed
mutation `add_file("a", 5)`).  `serialize` writes the stale stored hashes and
`deserialize` installs them with `dirty = false`, so the round-tripped tree
reports root hash 0 while the original, which recomputes because it is dirty,
reports `5 + PRIME = 0x9E3779B185EBCA8C`. -/
theorem C4_serialize_dirty_counterexample :
    (Merkle.deserialize Merkle.emptyTree
      (Merkle.serialize (Merkle.add_file Merkle.emptyTree (strBytes "a") 5))).1
      = true ∧
    Merkle.root_hash
      (Merkle.deserialize Merkle.emptyTree
        (Merkle.serialize
          (Merkle.add_file Merkle.emptyTree (strBytes "a") 5))).2 = 0 ∧
    Merkle.root_hash (Merkle.add_file Merkle.emptyTree (strBytes "a") 5) =
      0x9E3779B185EBCA8C ∧
    (0 : Nat) ≠ 0x9E3779B185EBCA8C := by
  refine ⟨?_, ?_, ?_, by decide⟩ <;>
    simp [Merkle.deserialize, Merkle.serialize, Merkle.serializeNode,
      Merkle.serializeChildren, Merkle.u32le, Merkle.u64le, Merkle.add_file,
      Merkle.emptyTree, Merkle.split_path, Merkle.split_path.go,
      Merkle.addFileNode, Merkle.addIntoChildren, Merkle.dNode, Merkle.dChildren,
      Merkle.insertChildNode, Merkle.readU32, Merkle.readU64, Merkle.readBytes,
      Merkle.root_hash, Merkle.computeNode, Merkle.computeChildren,
      Merkle.combine_hashes, Merkle.MNode.hash, Merkle.MNode.name, Merkle.byteLt,
      strBytes]

/-- C5: `FileIndex::load` on a file with valid magic and version, entry count
0, a declared merkle blob of 4 bytes but only 2 bytes present (truncation).
The claim (and the spec's corruption contract) requires failure with no
mutation; the code clears the entry map, ignores the failed
`MerkleTree::deserialize`, and returns `true`. -/
theorem C5_load_truncated_returns_true_and_clears :
    (FileIndexImpl.load
      (Merkle.u32le 0x4649444E ++ Merkle.u32le 1 ++ Merkle.u32le 0 ++
        Merkle.u32le 4 ++ [0, 0])
      ⟨[⟨[97], 5, 1, 2, 3, false⟩], Merkle.emptyTree⟩).1 = true ∧
    (FileIndexImpl.load
      (Merkle.u32le 0x4649444E ++ Merkle.u32le 1 ++ Merkle.u32le 0 ++
        Merkle.u32le 4 ++ [0, 0])
      ⟨[⟨[97], 5, 1, 2, 3, false⟩], Merkle.emptyTree⟩).2.entries = [] ∧
    ([⟨[97], 5, 1, 2, 3, false⟩] : List FileIndexImpl.FileEntryRec) ≠ [] := by
  refine ⟨?_, ?_, by decide⟩ <;>
    simp [FileIndexImpl.load, FileIndexImpl.readScalar32, FileIndexImpl.readScalar64,
      FileIndexImpl.readScalar8, FileIndexImpl.readPadded, FileIndexImpl.readEntries,
      FileIndexImpl.insertEntry, Merkle.u32le, Merkle.readU32, Merkle.readU64,
      Merkle.deserialize, Merkle.dNode, Merkle.emptyTree]

/-- C6: the hasher is standard xxHash64: `hash_string` on the three bytes
`"abc"` equals the published test vector `0x44BC2CF5AD770999` (nonzero) and
on the empty string equals the published empty-input vector
`0xEF46DB3751D8E999` (seed 0). -/
theorem C6_xxhash64_test_vectors :
    Hasher.hash_string (strBytes "abc") = 0x44BC2CF5AD770999 ∧
    Hasher.hash_string [] = 0xEF46DB3751D8E999 ∧
    Hasher.hash_string (strBytes "abc") ≠ 0 := by
  refine ⟨?_, ?_, ?_⟩ <;>
    simp [Hasher.hash_string, Hasher.XXHash64_hash, Hasher.xxhStripes,
      Hasher.xxhTail8, Hasher.xxhTail4, Hasher.xxhTail1, Hasher.avalanche,
      Hasher.add64, Hasher.mul64, Hasher.rotl64, Hasher.read64, Hasher.read32,
      Hasher.xxhRound, Hasher.xxhMergeRound, Hasher.sub64, Hasher.PRIME64_1,
      Hasher.PRIME64_2, Hasher.PRIME64_3, Hasher.PRIME64_4, Hasher.PRIME64_5,
      strBytes]

/-- C7 counterexample: the near-additivity bounds do not hold for all strings.
With `a = "1"` and `b` twenty-four `f` bytes, `count_tokens(a) = 1` and
`count_tokens(b) = 6`, but in the concatenation the DIGIT run absorbs the hex
letters, giving `count_tokens(a ++ b) = ceil(25/3) = 9 > 1 + 6 + 1`. -/
theorem C7_count_tokens_not_near_additive :
    Tokenizer.count_tokens (strBytes "1") = 1 ∧
    Tokenizer.count_tokens (strBytes "ffffffffffffffffffffffff") = 6 ∧
    Tokenizer.count_tokens
      (strBytes "1" ++ strBytes "ffffffffffffffffffffffff") = 9 ∧
    ¬ (Tokenizer.count_tokens (strBytes "1" ++ strBytes "ffffffffffffffffffffffff") ≤
        Tokenizer.count_tokens (strBytes "1") +
          Tokenizer.count_tokens (strBytes "ffffffffffffffffffffffff") + 1) := by
  have h1 : Tokenizer.count_tokens (strBytes "1") = 1 := by
    simp [Tokenizer.count_tokens, Tokenizer.estimate_tokens, Tokenizer.categorize,
      Tokenizer.isSpaceByte, Tokenizer.isAlphaByte, Tokenizer.isDigitByte,
      Tokenizer.isPunctByte, Tokenizer.isNumByte, Tokenizer.numTokens, strBytes]
  have h2 : Tokenizer.count_tokens (strBytes "ffffffffffffffffffffffff") = 6 := by
    simp [Tokenizer.count_tokens, Tokenizer.estimate_tokens, Tokenizer.categorize,
      Tokenizer.isSpaceByte, Tokenizer.isAlphaByte, Tokenizer.isDigitByte,
      Tokenizer.isPunctByte, Tokenizer.isWordByte, Tokenizer.wordTokens, strBytes]
  have h3 : Tokenizer.count_tokens
      (strBytes "1" ++ strBytes "ffffffffffffffffffffffff") = 9 := by
    simp [Tokenizer.count_tokens, Tokenizer.estimate_tokens, Tokenizer.categorize,
      Tokenizer.isSpaceByte, Tokenizer.isAlphaByte, Tokenizer.isDigitByte,
      Tokenizer.isPunctByte, Tokenizer.isNumByte, Tokenizer.numTokens, strBytes]
  exact ⟨h1, h2, h3, by omega⟩

/-- C8 counterexample: `count_tokens("hello == world")` is 7, not the claimed
5 — `hello` and `world` are five-letter words, and the LETTER-run table
(`w ≤ 4 → 1, w ≤ 8 → 2`) credits each with 2 tokens. -/
theorem C8_hello_world_count_counterexample :
    Tokenizer.count_tokens (strBytes "hello == world") ≠ 5 := by
  simp [Tokenizer.count_tokens, Tokenizer.estimate_tokens, Tokenizer.categorize,
    Tokenizer.isSpaceByte, Tokenizer.isAlphaByte, Tokenizer.isDigitByte,
    Tokenizer.isPunctByte, Tokenizer.isWordByte, Tokenizer.isPairEst,
    Tokenizer.punctRest, Tokenizer.wordTokens, strBytes]

/-- C8 amended: on `"hello == world"` the token count is 7 (word `hello` = 2,
whitespace = 1, operator `==` = 1, whitespace = 1, word `world` = 2), and
`find_token_boundary(s, 3)` is 5, the byte offset of the space immediately
after `hello`, as the claim stated. -/
theorem C8_hello_world_tokens_amended :
    Tokenizer.count_tokens (strBytes "hello == world") = 7 ∧
    Tokenizer.find_token_boundary (strBytes "hello == world") 3 = 5 ∧
    (strBytes "hello == world").take 5 = strBytes "hello" := by
  refine ⟨?_, ?_, ?_⟩ <;>
    simp [Tokenizer.count_tokens, Tokenizer.estimate_tokens,
      Tokenizer.find_token_boundary, Tokenizer.find_boundary, Tokenizer.fbAux,
      Tokenizer.fbConsume, Tokenizer.categorize, Tokenizer.isSpaceByte,
      Tokenizer.isAlphaByte, Tokenizer.isDigitByte, Tokenizer.isPunctByte,
      Tokenizer.isWordByte, Tokenizer.isPairEst, Tokenizer.isPairFB,
      Tokenizer.punctRest, Tokenizer.wordTokens, strBytes]

/-- C9: on the TypeScript source `var s = "interface Foo";` the
string literal spans bytes 8–22 (`skip_string` at the opening quote returns
23), yet the TypeScript-specific pass of `detect_typescript` emits an
`interface` declaration boundary at byte offset 9 — strictly inside the
literal — because that pass rescans the raw bytes with no string or comment
skipping. -/
theorem C9_ts_pass_boundary_inside_string :
    Boundaries.tsExtraScan (strBytes "var s = \"interface Foo\";") 0 =
      [(9, Boundaries.TsKind.INTERFACE, strBytes "Foo")] ∧
    Boundaries.skip_string (strBytes "var s = \"interface Foo\";") 8 34 = 23 ∧
    8 < 9 ∧ 9 < 23 := by
  refine ⟨?_, ?_, by omega, by omega⟩
  · simp [Boundaries.tsExtraScan, Boundaries.matchKeywordDecl,
      Boundaries.kwInterfaceB, Boundaries.kwEnumB, Boundaries.isRegexSpace,
      Boundaries.isIdentStart, Boundaries.isIdentChar, List.takeWhile_cons,
      strBytes]
  · simp [Boundaries.skip_string, Boundaries.skipStringAux, strBytes]

namespace Indexer

theorem foldl_fixed {α β : Type} (f : β → α → β) (l : List α) (acc : β)
    (h : ∀ b : β, ∀ x ∈ l, f b x = b) : l.foldl f acc = acc := by
  induction l generalizing acc with
  | nil => rfl
  | cons x xs ih =>
    simp only [List.foldl_cons]
    rw [h acc x (by simp)]
    exact ih acc (fun b y hy => h b y (by simp [hy]))

/-- `p` occurs in some bucket of the hash → paths multimap `m`. -/
def inBuckets (p : String) (m : List (Nat × List String)) : Prop :=
  ∃ hb ∈ m, p ∈ hb.2

theorem inBuckets_bucketAdd {p q : String} {hsh : Nat}
    {m : List (Nat × List String)} (h : inBuckets p (bucketAdd m hsh q)) :
    inBuckets p m ∨ p = q := by
  induction m with
  | nil =>
    obtain ⟨hb, hmem, hp⟩ := h
    simp only [bucketAdd, List.mem_singleton] at hmem
    subst hmem
    simp only [List.mem_singleton] at hp
    exact Or.inr hp
  | cons e rest ih =>
    obtain ⟨hb, hmem, hp⟩ := h
    simp only [bucketAdd] at hmem
    split at hmem
    · rcases List.mem_cons.mp hmem with hfst | hrest
      · subst hfst
        rcases List.mem_append.mp hp with hin | hq
        · exact Or.inl ⟨e, List.mem_cons_self _ _, hin⟩
        · simp only [List.mem_singleton] at hq
          exact Or.inr hq
      · exact Or.inl ⟨hb, List.mem_cons_of_mem _ hrest, hp⟩
    · rcases List.mem_cons.mp hmem with hfst | hrest
      · subst hfst
        exact Or.inl ⟨e, List.mem_cons_self _ _, hp⟩
      · rcases ih ⟨hb, hrest, hp⟩ with hm | hq
        · obtain ⟨hb', hmem', hp'⟩ := hm
          exact Or.inl ⟨hb', List.mem_cons_of_mem _ hmem', hp'⟩
        · exact Or.inr hq

theorem inBuckets_foldl {p : String} :
    ∀ (files : List FE) (m : List (Nat × List String)),
      inBuckets p (files.foldl
        (fun m e => if e.content_hash ≠ 0 then bucketAdd m e.content_hash e.path else m) m) →
      inBuckets p m ∨ p ∈ files.map (·.path) := by
  intro files
  induction files with
  | nil =>
    intro m h
    exact Or.inl h
  | cons e fs ih =>
    intro m h
    simp only [List.foldl_cons] at h
    rcases ih _ h with hstep | hfs
    · by_cases he : e.content_hash ≠ 0
      · rw [if_pos he] at hstep
        rcases inBuckets_bucketAdd hstep with hm | hq
        · exact Or.inl hm
        · exact Or.inr (by simp [hq])
      · rw [if_neg he] at hstep
        exact Or.inl hstep
    · exact Or.inr (by simp [hfs])

theorem inBuckets_buildHashMap {p : String} {files : List FE}
    (h : inBuckets p (buildHashMap files)) : p ∈ files.map (·.path) := by
  rcases inBuckets_foldl files [] h with habs | hmem
  · obtain ⟨hb, hmem, _⟩ := habs
    simp at hmem
  · exact hmem

theorem detect_renames_self (files : List FE) :
    detect_renames files files = [] := by
  unfold detect_renames
  apply foldl_fixed
  intro acc hb hmem
  cases hfind : bucketFind (buildHashMap files) hb.1 with
  | none => simp [hfind]
  | some nb =>
    simp only [hfind]
    apply foldl_fixed
    intro acc2 op hop
    have hin : op ∈ files.map (·.path) :=
      inBuckets_buildHashMap ⟨hb, hmem, hop⟩
    have hcont : (files.map (·.path)).contains op = true := by
      simpa using hin
    simp only [hcont]
    simp

def pathKeys (m : List (String × Nat)) : List String :=
  m.map Prod.fst

theorem pathMapInsert_keys_mem {m : List (String × Nat)} {p q : String} {h : Nat} :
    q ∈ pathKeys (pathMapInsert m p h) ↔ q ∈ pathKeys m ∨ q = p := by
  induction m with
  | nil => simp [pathMapInsert, pathKeys]
  | cons e rest ih =>
    simp only [pathMapInsert]
    split
    · rename_i heq
      simp only [pathKeys, List.map_cons, List.mem_cons] at *
      constructor
      · rintro (hq | hq)
        · exact Or.inr hq
        · exact Or.inl (Or.inr hq)
      · rintro ((hq | hq) | hq)
        · exact Or.inl (hq.trans heq)
        · exact Or.inr hq
        · exact Or.inl hq
    · simp only [pathKeys, List.map_cons, List.mem_cons] at *
      constructor
      · rintro (hq | hq)
        · exact Or.inl (Or.inl hq)
        · rcases ih.mp hq with hm | hp
          · exact Or.inl (Or.inr hm)
          · exact Or.inr hp
      · rintro ((hq | hq) | hq)
        · exact Or.inl hq
        · exact Or.inr (ih.mpr (Or.inl hq))
        · exact Or.inr (ih.mpr (Or.inr hq))

theorem pathMapInsert_nodup {m : List (String × Nat)} {p : String} {h : Nat}
    (hm : (pathKeys m).Nodup) : (pathKeys (pathMapInsert m p h)).Nodup := by
  induction m with
  | nil => simp [pathMapInsert, pathKeys]
  | cons e rest ih =>
    simp only [pathMapInsert]
    split
    · simp only [pathKeys, List.map_cons, List.nodup_cons] at hm ⊢
      rename_i heq
      exact ⟨heq ▸ hm.1, hm.2⟩
    · simp only [pathKeys, List.map_cons, List.nodup_cons] at hm ⊢
      refine ⟨?_, ih hm.2⟩
      intro hmem
      rcases pathMapInsert_keys_mem.mp hmem with hk | hk
      · exact hm.1 hk
      · rename_i hne
        exact hne hk

theorem buildPathMap_nodup_aux :
    ∀ (files : List FE) (m : List (String × Nat)), (pathKeys m).Nodup →
      (pathKeys (files.foldl (fun m e => pathMapInsert m e.path e.content_hash) m)).Nodup := by
  intro files
  induction files with
  | nil => intro m hm; exact hm
  | cons e fs ih =>
    intro m hm
    simp only [List.foldl_cons]
    exact ih _ (pathMapInsert_nodup hm)

theorem buildPathMap_nodup (files : List FE) :
    (pathKeys (buildPathMap files)).Nodup := by
  unfold buildPathMap
  exact buildPathMap_nodup_aux files [] (by simp [pathKeys])

theorem pathMapFind_of_mem {m : List (String × Nat)} {p : String} {h : Nat}
    (hnd : (pathKeys m).Nodup) (hmem : (p, h) ∈ m) :
    pathMapFind m p = some h := by
  induction m with
  | nil => simp at hmem
  | cons e rest ih =>
    simp only [pathKeys, List.map_cons, List.nodup_cons] at hnd
    rcases List.mem_cons.mp hmem with hfst | hrest
    · subst hfst
      simp [pathMapFind]
    · simp only [pathMapFind]
      split
      · rename_i heq
        exfalso
        apply hnd.1
        rw [heq]
        exact List.mem_map_of_mem Prod.fst hrest
      · exact ih hnd.2 hrest

/-- C10: diffing a scan against itself yields no changes — no Added,
Modified, Deleted, or Renamed records and all counters zero — whether or not
rename detection is enabled. -/
theorem C10_diff_self_empty (detectRenamesCfg : Bool) (files : List FE) :
    diff detectRenamesCfg files files =
      ⟨[], 0, 0, 0, 0⟩ := by
  have hren : (if detectRenamesCfg then detect_renames files files else []) = [] := by
    cases detectRenamesCfg <;> simp [detect_renames_self]
  unfold diff
  simp only [hren, List.map_nil, List.length_nil]
  have hfix1 :
      (buildPathMap files).foldl
        (fun (r : DiffResult) pe =>
          if ([] : List String).contains pe.1 then r
          else
            match pathMapFind (buildPathMap files) pe.1 with
            | none =>
              { r with changes := r.changes ++ [⟨.ADDED, pe.1, "", 0, pe.2⟩],
                       added_count := r.added_count + 1 }
            | some oldHash =>
              if oldHash ≠ pe.2 then
                { r with changes := r.changes ++ [⟨.MODIFIED, pe.1, "", oldHash, pe.2⟩],
                         modified_count := r.modified_count + 1 }
              else r)
        ⟨[], 0, 0, 0, 0⟩ = ⟨[], 0, 0, 0, 0⟩ := by
    apply foldl_fixed
    intro r pe hpe
    have hfind : pathMapFind (buildPathMap files) pe.1 = some pe.2 :=
      pathMapFind_of_mem (buildPathMap_nodup files) (by simpa using hpe)
    simp [hfind]
  rw [hfix1]
  apply foldl_fixed
  intro r pe hpe
  have hfind : pathMapFind (buildPathMap files) pe.1 = some pe.2 :=
    pathMapFind_of_mem (buildPathMap_nodup files) (by simpa using hpe)
  simp [hfind]

end Indexer

namespace Merkle

theorem eraseChild_addIntoChildren (c : List Nat) (h : Nat) (ch : List MNode)
    (hnot : c ∉ ch.map MNode.name) :
    eraseChild c (addIntoChildren c [] h ch) = ch := by
  induction ch with
  | nil =>
    simp [addIntoChildren, addFileNode, eraseChild, MNode.name]
  | cons x xs ih =>
    have hxc : ¬ (x.name = c) := by
      intro hx
      exact hnot (by simp [hx.symm])
    simp only [addIntoChildren, if_neg hxc]
    split
    · simp [eraseChild, addFileNode, MNode.name]
    · simp only [eraseChild, if_neg hxc]
      rw [ih (fun hmem => hnot (by simp [hmem]))]

/-- C3 amended: for a single-component path `p = [c]` whose component is not
already a child of the root, `add_file(p, h)` then `remove_file(p)` restores
the root node exactly, so the root hash agrees with the tree built without
`p` (the tree's stored hashes being up to date, or the tree being dirty so
that `root_hash` recomputes either way). -/
theorem C3_add_remove_single_component (t : MTree) (p : List Nat) (h : Nat)
    (c : List Nat) (hsplit : split_path p = [c])
    (hnot : c ∉ t.root.children.map MNode.name)
    (hacc : t.dirty = true ∨ computeNode t.root = t.root) :
    root_hash (remove_file (add_file t p h) p) = root_hash t := by
  obtain ⟨root, dirty⟩ := t
  obtain ⟨n, h0, f0, ch⟩ := root
  simp only [MNode.children] at hnot
  simp only [add_file, remove_file, hsplit]
  simp only [addFileNode, removeNode]
  rw [eraseChild_addIntoChildren c h ch hnot]
  rcases hacc with hd | hc
  · simp only at hd
    simp [root_hash, hd]
  · simp only at hc
    simp only [root_hash]
    cases dirty with
    | true => simp
    | false =>
      simp only [Bool.false_eq_true, if_false, if_true]
      rw [hc]

/-- C3 amended, witness: a fresh tree and the single-component path `"a"`
with hash 7. -/
theorem C3_add_remove_single_component_witness :
    root_hash (remove_file (add_file emptyTree (strBytes "a") 7) (strBytes "a")) =
      root_hash emptyTree :=
  C3_add_remove_single_component emptyTree (strBytes "a") 7 (strBytes "a")
    (by simp [split_path, split_path.go, strBytes])
    (by simp [emptyTree, MNode.children])
    (Or.inr (by simp [emptyTree, computeNode, computeChildren]))

end Merkle


namespace Tokenizer

/-! ### Byte-class facts used by the whitespace-split analysis -/

theorem categorize_wsnl_le32 (w : Nat)
    (h : categorize w = Cat.ws ∨ categorize w = Cat.newline) : w ≤ 32 := by
  by_contra hgt
  push_neg at hgt
  have h1 : ¬ ((w == 10 || w == 13) = true) := by
    simp only [Bool.or_eq_true, beq_iff_eq]
    omega
  have h2 : ¬ (isSpaceByte w = true) := by
    simp only [isSpaceByte, Bool.or_eq_true, Bool.and_eq_true, beq_iff_eq,
      decide_eq_true_eq]
    omega
  rcases h with h | h <;>
  · simp only [categorize, if_neg h1, if_neg h2] at h
    split at h
    · exact absurd h (by decide)
    · split at h
      · exact absurd h (by decide)
      · split at h
        · exact absurd h (by decide)
        · exact absurd h (by decide)

theorem isPairEst_snd_ge (c w : Nat) (h : isPairEst c w = true) : 38 ≤ w := by
  simp only [isPairEst, Bool.or_eq_true, Bool.and_eq_true, beq_iff_eq] at h
  rcases h with ⟨⟨⟨⟨⟨⟨⟨⟨⟨⟨⟨⟨⟨⟨h | h⟩ | h⟩ | h⟩ | h⟩ | h⟩ | h⟩ | h⟩ | h⟩ |
    h⟩ | h⟩ | h⟩ | h⟩ | h⟩ | h⟩ | h <;> omega

theorem wsnl_not_word (w : Nat)
    (h : categorize w = Cat.ws ∨ categorize w = Cat.newline) :
    isWordByte w = false := by
  rcases h with h | h <;> simp [isWordByte, h]

theorem wsnl_not_num (w : Nat)
    (h : categorize w = Cat.ws ∨ categorize w = Cat.newline) :
    isNumByte w = false := by
  have hle := categorize_wsnl_le32 w h
  by_contra hne
  have ht : isNumByte w = true := by
    revert hne
    cases isNumByte w <;> simp
  simp only [isNumByte, isDigitByte, Bool.or_eq_true, Bool.and_eq_true,
    beq_iff_eq, decide_eq_true_eq, or_assoc] at ht
  rcases ht with h' | h' | h' | h' | h' | h' | h' | h' | h' | h' <;> omega

theorem wsnl_not_pair (c w : Nat)
    (h : categorize w = Cat.ws ∨ categorize w = Cat.newline) :
    isPairEst c w = false := by
  by_contra hne
  have ht : isPairEst c w = true := by
    revert hne
    cases isPairEst c w <;> simp
  have := isPairEst_snd_ge c w ht
  have := categorize_wsnl_le32 w h
  omega

theorem wsnl_ne_61 (w : Nat)
    (h : categorize w = Cat.ws ∨ categorize w = Cat.newline) : w ≠ 61 := by
  have := categorize_wsnl_le32 w h
  omega

theorem wsnl_not_wsPred_of_nl (w : Nat) (h : categorize w = Cat.newline) :
    (categorize w == Cat.ws) = false := by
  simp [h]

/-! ### takeWhile / dropWhile / punctRest across an append seam -/

theorem takeWhile_append_stop (p : Nat → Bool) (a : List Nat) (w : Nat)
    (bs : List Nat) (hw : p w = false) :
    (a ++ w :: bs).takeWhile p = a.takeWhile p := by
  induction a with
  | nil => simp [List.takeWhile_cons, hw]
  | cons x xs ih =>
    simp only [List.cons_append, List.takeWhile_cons]
    split
    · rw [ih]
    · rfl

theorem dropWhile_append_stop (p : Nat → Bool) (a : List Nat) (w : Nat)
    (bs : List Nat) (hw : p w = false) :
    (a ++ w :: bs).dropWhile p = a.dropWhile p ++ w :: bs := by
  induction a with
  | nil => simp [List.dropWhile_cons, hw]
  | cons x xs ih =>
    simp only [List.cons_append, List.dropWhile_cons]
    split
    · exact ih
    · rfl

theorem dropWhile_append_all (p : Nat → Bool) (a : List Nat) (b : List Nat)
    (ha : ∀ x ∈ a, p x = true) :
    (a ++ b).dropWhile p = b.dropWhile p := by
  induction a with
  | nil => rfl
  | cons x xs ih =>
    simp only [List.cons_append, List.dropWhile_cons, ha x (by simp)]
    exact ih (fun y hy => ha y (by simp [hy]))

theorem dropWhile_append_stuck (p : Nat → Bool) (a : List Nat) (b : List Nat)
    (ha : a.dropWhile p ≠ []) :
    (a ++ b).dropWhile p = a.dropWhile p ++ b := by
  induction a with
  | nil => simp at ha
  | cons x xs ih =>
    simp only [List.cons_append, List.dropWhile_cons] at ha ⊢
    split
    · rename_i hpx
      rw [ih (by simpa [hpx] using ha)]
    · rfl

theorem punctRest_append_seam (c : Nat) (cs : List Nat) (w : Nat)
    (bs : List Nat) (hw : categorize w = Cat.ws ∨ categorize w = Cat.newline) :
    punctRest isPairEst c (cs ++ w :: bs) = punctRest isPairEst c cs ++ w :: bs := by
  match cs with
  | [] =>
    simp only [List.nil_append, punctRest, wsnl_not_pair c w hw,
      Bool.false_eq_true, if_false]
  | [d] =>
    simp only [List.cons_append, List.nil_append, punctRest]
    split
    · have h61 : (w == 61) = false := by
        simp [wsnl_ne_61 w hw]
      simp [h61]
    · rfl
  | d :: e :: es =>
    simp only [List.cons_append, punctRest]
    split
    · split <;> rfl
    · rfl

end Tokenizer

namespace Tokenizer

theorem estimate_cons_ws (c : Nat) (cs : List Nat) (h : categorize c = Cat.ws) :
    estimate_tokens (c :: cs) =
      1 + estimate_tokens (cs.dropWhile (fun b => categorize b == Cat.ws)) := by
  simp only [estimate_tokens, h]

theorem estimate_cons_nl (c : Nat) (cs : List Nat)
    (h : categorize c = Cat.newline) :
    estimate_tokens (c :: cs) = 1 + estimate_tokens cs := by
  simp only [estimate_tokens, h]

theorem estimate_cons_letter (c : Nat) (cs : List Nat)
    (h : categorize c = Cat.letter) :
    estimate_tokens (c :: cs) =
      wordTokens (1 + (cs.takeWhile isWordByte).length) +
        estimate_tokens (cs.dropWhile isWordByte) := by
  simp only [estimate_tokens, h]

theorem estimate_cons_digit (c : Nat) (cs : List Nat)
    (h : categorize c = Cat.digit) :
    estimate_tokens (c :: cs) =
      numTokens (1 + (cs.takeWhile isNumByte).length) +
        estimate_tokens (cs.dropWhile isNumByte) := by
  simp only [estimate_tokens, h]

theorem estimate_cons_punct (c : Nat) (cs : List Nat)
    (h : categorize c = Cat.punct) :
    estimate_tokens (c :: cs) = 1 + estimate_tokens (punctRest isPairEst c cs) := by
  simp only [estimate_tokens, h]

theorem estimate_cons_other (c : Nat) (cs : List Nat)
    (h : categorize c = Cat.other) :
    estimate_tokens (c :: cs) = 1 + estimate_tokens cs := by
  simp only [estimate_tokens, h]

/-- Splitting `estimate_tokens` at a whitespace/newline seam: concatenating
`a` in front of a text beginning with a whitespace or newline byte is exactly
additive, except that a trailing whitespace run of `a` merges with a leading
whitespace run of the suffix, costing exactly one token. -/
theorem estimate_append_ws_aux :
    ∀ (n : Nat) (a : List Nat), a.length ≤ n →
      ∀ (w : Nat) (bs : List Nat),
        categorize w = Cat.ws ∨ categorize w = Cat.newline →
        estimate_tokens (a ++ w :: bs) =
            estimate_tokens a + estimate_tokens (w :: bs) ∨
        estimate_tokens (a ++ w :: bs) + 1 =
            estimate_tokens a + estimate_tokens (w :: bs) := by
  intro n
  induction n with
  | zero =>
    intro a hlen w bs _
    have ha : a = [] := List.eq_nil_of_length_eq_zero (by omega)
    subst ha
    exact Or.inl (by simp [estimate_tokens])
  | succ k ih =>
    intro a hlen w bs hw
    match a with
    | [] => exact Or.inl (by simp [estimate_tokens])
    | c :: cs =>
      simp only [List.length_cons] at hlen
      simp only [List.cons_append]
      rcases hcat : categorize c with hws | hl | hd | hp | hn | ho
      case ws =>
        rw [estimate_cons_ws c (cs ++ w :: bs) hcat, estimate_cons_ws c cs hcat]
        by_cases hnil : cs.dropWhile (fun b => categorize b == Cat.ws) = []
        · have hall : ∀ x ∈ cs, (fun b => categorize b == Cat.ws) x = true :=
            List.dropWhile_eq_nil_iff.mp hnil
          rw [dropWhile_append_all _ cs (w :: bs) hall, hnil]
          rcases hw with hww | hwn
          · rw [List.dropWhile_cons, if_pos (by simp [hww])]
            rw [estimate_cons_ws w bs hww]
            right
            simp only [estimate_tokens]
            omega
          · rw [List.dropWhile_cons,
              if_neg (by simp [wsnl_not_wsPred_of_nl w hwn])]
            left
            simp only [estimate_tokens]
            try omega
        · rw [dropWhile_append_stuck _ cs (w :: bs) hnil]
          have hlen' : (cs.dropWhile (fun b => categorize b == Cat.ws)).length ≤ k := by
            have := dropWhile_length_le (fun b => categorize b == Cat.ws) cs
            omega
          rcases ih _ hlen' w bs hw with h | h
          · left
            omega
          · right
            omega
      case newline =>
        rw [estimate_cons_nl c (cs ++ w :: bs) hcat, estimate_cons_nl c cs hcat]
        rcases ih cs (by omega) w bs hw with h | h
        · left
          omega
        · right
          omega
      case letter =>
        have hnw : isWordByte w = false := wsnl_not_word w hw
        rw [estimate_cons_letter c (cs ++ w :: bs) hcat,
          estimate_cons_letter c cs hcat,
          takeWhile_append_stop _ cs w bs hnw,
          dropWhile_append_stop _ cs w bs hnw]
        have hlen' : (cs.dropWhile isWordByte).length ≤ k := by
          have := dropWhile_length_le isWordByte cs
          omega
        rcases ih _ hlen' w bs hw with h | h
        · left
          omega
        · right
          omega
      case digit =>
        have hnn : isNumByte w = false := wsnl_not_num w hw
        rw [estimate_cons_digit c (cs ++ w :: bs) hcat,
          estimate_cons_digit c cs hcat,
          takeWhile_append_stop _ cs w bs hnn,
          dropWhile_append_stop _ cs w bs hnn]
        have hlen' : (cs.dropWhile isNumByte).length ≤ k := by
          have := dropWhile_length_le isNumByte cs
          omega
        rcases ih _ hlen' w bs hw with h | h
        · left
          omega
        · right
          omega
      case punct =>
        rw [estimate_cons_punct c (cs ++ w :: bs) hcat,
          estimate_cons_punct c cs hcat,
          punctRest_append_seam c cs w bs hw]
        have hlen' : (punctRest isPairEst c cs).length ≤ k := by
          have := punctRest_length_le isPairEst c cs
          omega
        rcases ih _ hlen' w bs hw with h | h
        · left
          omega
        · right
          omega
      case other =>
        rw [estimate_cons_other c (cs ++ w :: bs) hcat,
          estimate_cons_other c cs hcat]
        rcases ih cs (by omega) w bs hw with h | h
        · left
          omega
        · right
          omega

end Tokenizer

/-- C7 amended: token counts are near-additive across a whitespace split —
when `b` begins with a whitespace or newline byte,
`count_tokens(a) + count_tokens(b) - 1 ≤ count_tokens(a ++ b) ≤
count_tokens(a) + count_tokens(b) + 1` (indeed the concatenation count equals
the sum, or one less when trailing and leading whitespace runs merge). -/
theorem C7_count_tokens_near_additive_ws_split (a : List Nat) (w : Nat)
    (bs : List Nat)
    (hw : Tokenizer.categorize w = Tokenizer.Cat.ws ∨
      Tokenizer.categorize w = Tokenizer.Cat.newline) :
    Tokenizer.count_tokens a + Tokenizer.count_tokens (w :: bs) - 1 ≤
      Tokenizer.count_tokens (a ++ w :: bs) ∧
    Tokenizer.count_tokens (a ++ w :: bs) ≤
      Tokenizer.count_tokens a + Tokenizer.count_tokens (w :: bs) + 1 := by
  unfold Tokenizer.count_tokens
  rcases Tokenizer.estimate_append_ws_aux a.length a (Nat.le_refl _) w bs hw with
    h | h <;> omega

/-- C7 amended, witness: `a = "foo"`, `b = " bar"` (split at the space). -/
theorem C7_count_tokens_near_additive_ws_split_witness :
    (Tokenizer.categorize 32 = Tokenizer.Cat.ws ∨
      Tokenizer.categorize 32 = Tokenizer.Cat.newline) ∧
    (Tokenizer.count_tokens (strBytes "foo") +
        Tokenizer.count_tokens (32 :: strBytes "bar") - 1 ≤
      Tokenizer.count_tokens (strBytes "foo" ++ 32 :: strBytes "bar") ∧
    Tokenizer.count_tokens (strBytes "foo" ++ 32 :: strBytes "bar") ≤
      Tokenizer.count_tokens (strBytes "foo") +
        Tokenizer.count_tokens (32 :: strBytes "bar") + 1) :=
  ⟨Or.inl (by decide),
    C7_count_tokens_near_additive_ws_split (strBytes "foo") 32 (strBytes "bar")
      (Or.inl (by decide))⟩

namespace Merkle

/-! ### Order facts about `byteLt` (memcmp order) -/

theorem byteLt_irrefl (a : List Nat) : byteLt a a = false := by
  induction a with
  | nil => rfl
  | cons x xs ih =>
    simp only [byteLt, if_neg (Nat.lt_irrefl x)]
    exact ih

theorem byteLt_ne (a b : List Nat) (h : byteLt a b = true) : a ≠ b := by
  intro he
  subst he
  rw [byteLt_irrefl] at h
  exact absurd h (by simp)

theorem byteLt_asymm (a : List Nat) :
    ∀ b, byteLt a b = true → byteLt b a = false := by
  induction a with
  | nil =>
    intro b hab
    match b with
    | [] => simp [byteLt] at hab
    | y :: ys => simp [byteLt]
  | cons x xs ih =>
    intro b hab
    match b with
    | [] => simp [byteLt] at hab
    | y :: ys =>
      simp only [byteLt] at hab ⊢
      split at hab
      · rw [if_neg (by omega), if_pos (by omega)]
      · split at hab
        · exact absurd hab (by simp)
        · rw [if_neg (by omega), if_neg (by omega)]
          exact ih ys hab

theorem byteLt_trans (a : List Nat) :
    ∀ b c, byteLt a b = true → byteLt b c = true → byteLt a c = true := by
  induction a with
  | nil =>
    intro b c hab hbc
    match b with
    | [] => simp [byteLt] at hab
    | y :: ys =>
      match c with
      | [] => simp [byteLt] at hbc
      | z :: zs => simp [byteLt]
  | cons x xs ih =>
    intro b c hab hbc
    match b with
    | [] => simp [byteLt] at hab
    | y :: ys =>
      match c with
      | [] => simp [byteLt] at hbc
      | z :: zs =>
        simp only [byteLt] at hab hbc ⊢
        split at hab
        · split at hbc
          · rw [if_pos (by omega)]
          · split at hbc
            · exact absurd hbc (by simp)
            · rw [if_pos (by omega)]
        · split at hab
          · exact absurd hab (by simp)
          · split at hbc
            · rw [if_pos (by omega)]
            · split at hbc
              · exact absurd hbc (by simp)
              · rw [if_neg (by omega), if_neg (by omega)]
                exact ih ys zs hab hbc

theorem namesSorted_cons (x : MNode) (xs : List MNode)
    (h : namesSorted (x :: xs) = true) :
    namesSorted xs = true ∧ ∀ z ∈ xs, byteLt x.name z.name = true := by
  induction xs generalizing x with
  | nil => exact ⟨rfl, by simp⟩
  | cons y ys ih =>
    simp only [namesSorted, Bool.and_eq_true] at h
    obtain ⟨hxy, hrest⟩ := h
    have := ih y hrest
    refine ⟨hrest, ?_⟩
    intro z hz
    rcases List.mem_cons.mp hz with hzy | hzys
    · subst hzy
      exact hxy
    · exact byteLt_trans _ _ _ hxy (this.2 z hzys)

theorem insertChildNode_append (x : MNode) (acc : List MNode)
    (h : ∀ y ∈ acc, byteLt y.name x.name = true) :
    insertChildNode x acc = acc ++ [x] := by
  induction acc with
  | nil => rfl
  | cons y ys ih =>
    have hy : byteLt y.name x.name = true := h y (by simp)
    simp only [insertChildNode]
    rw [if_neg (byteLt_ne _ _ hy),
      if_neg (by simp [byteLt_asymm _ _ hy])]
    rw [ih (fun z hz => h z (by simp [hz]))]
    rfl

end Merkle

namespace Merkle

/-! ### Reader / writer inverses -/

theorem readU32_u32le (k : Nat) (rest : List Nat) (hk : k < 2 ^ 32) :
    readU32 (u32le k ++ rest) = some (k, rest) := by
  simp only [u32le, List.cons_append, List.nil_append, readU32, Option.some.injEq,
    Prod.mk.injEq]
  exact ⟨by omega, trivial⟩

theorem readU64_u64le (k : Nat) (rest : List Nat) (hk : k < 2 ^ 64) :
    readU64 (u64le k ++ rest) = some (k, rest) := by
  simp only [u64le, List.cons_append, List.nil_append, readU64, Option.some.injEq,
    Prod.mk.injEq]
  exact ⟨by omega, trivial⟩

theorem readBytes_exact (name rest : List Nat) :
    readBytes name.length (name ++ rest) = some (name, rest) := by
  simp [readBytes, List.take_left, List.drop_left]

/-! ### Recursion depth bound for the deserializer fuel -/

mutual

def depthN : MNode → Nat
  | .node _ _ _ ch => 1 + depthC ch

def depthC : List MNode → Nat
  | [] => 0
  | x :: xs => max (depthN x) (depthC xs)

end

mutual

theorem depthN_le_ser (n : MNode) : depthN n ≤ (serializeNode n).length := by
  match n with
  | .node name h f ch =>
    have hch := depthC_le_ser ch
    simp only [depthN, serializeNode, List.length_append, u32le, u64le,
      List.length_cons, List.length_nil]
    omega

theorem depthC_le_ser (ch : List MNode) : depthC ch ≤ (serializeChildren ch).length := by
  match ch with
  | [] => simp [depthC, serializeChildren]
  | x :: xs =>
    have h1 := depthN_le_ser x
    have h2 := depthC_le_ser xs
    simp only [depthC, serializeChildren, List.length_append]
    omega

end

/-! ### Round trip of the node serializer on well-formed trees -/

theorem dNode_roundtrip :
    ∀ fuel : Nat,
      (∀ (n : MNode) (rest : List Nat), wfNode n = true → depthN n ≤ fuel →
        dNode fuel (serializeNode n ++ rest) = some (n, rest)) ∧
      (∀ (ch : List MNode) (acc : List MNode) (rest : List Nat),
        wfChildren ch = true → namesSorted ch = true →
        (∀ y ∈ acc, ∀ z ∈ ch, byteLt y.name z.name = true) →
        depthC ch ≤ fuel →
        dChildren fuel ch.length acc (serializeChildren ch ++ rest) =
          some (acc ++ ch, rest)) := by
  intro fuel
  induction fuel with
  | zero =>
    constructor
    · intro n rest _ hdep
      exact absurd hdep (by cases n with | node _ _ _ ch => simp [depthN])
    · intro ch acc rest _ _ _ hdep
      match ch with
      | [] => simp [serializeChildren, dChildren]
      | x :: xs =>
        exfalso
        have : 1 ≤ depthN x := by
          cases x with | node _ _ _ c => simp [depthN]
        simp only [depthC] at hdep
        omega
  | succ fuel ih =>
    have hP : ∀ (n : MNode) (rest : List Nat), wfNode n = true →
        depthN n ≤ fuel + 1 →
        dNode (fuel + 1) (serializeNode n ++ rest) = some (n, rest) := by
      intro n rest hwf hdep
      match n with
      | .node name h f ch =>
        simp only [wfNode, Bool.and_eq_true, decide_eq_true_eq] at hwf
        obtain ⟨⟨⟨⟨⟨hn32, hh64⟩, hc32⟩, _⟩, hsort⟩, hwfch⟩ := hwf
        simp only [depthN] at hdep
        simp only [serializeNode, List.append_assoc, List.cons_append,
          List.nil_append]
        simp only [dNode]
        rw [readU32_u32le name.length _ hn32]
        simp only
        rw [readBytes_exact name _]
        simp only
        rw [readU64_u64le h _ hh64]
        simp only
        rw [readU32_u32le ch.length _ hc32]
        simp only
        rw [(ih.2 ch [] rest hwfch hsort (by simp) (by omega))]
        have hfb : (((if f then (1 : Nat) else 0)) != 0) = f := by
          cases f <;> simp
        rw [hfb]
        simp
    refine ⟨hP, ?_⟩
    intro ch
    induction ch with
    | nil =>
      intro acc rest _ _ _ _
      simp [serializeChildren, dChildren]
    | cons x xs ihch =>
      intro acc rest hwfch hsort hacc hdep
      simp only [wfChildren, Bool.and_eq_true] at hwfch
      obtain ⟨hwfx, hwfxs⟩ := hwfch
      obtain ⟨hsortxs, hlt⟩ := namesSorted_cons x xs hsort
      simp only [depthC] at hdep
      simp only [serializeChildren, List.append_assoc, List.length_cons,
        dChildren]
      rw [hP x (serializeChildren xs ++ rest) hwfx (by omega)]
      simp only
      rw [insertChildNode_append x acc (fun y hy => hacc y hy x (by simp))]
      rw [ihch (acc ++ [x]) rest hwfxs hsortxs ?_ (by omega)]
      · simp
      · intro y hy z hz
        rcases List.mem_append.mp hy with hya | hyx
        · exact hacc y hya z (by simp [hz])
        · simp only [List.mem_singleton] at hyx
          subst hyx
          exact hlt z hz

end Merkle

namespace Merkle

/-- A concrete well-formed clean tree: root directory with one file `a`
(hash 5). -/
def sampleTree : MTree :=
  ⟨.node [] 0 false [.node [97] 5 true []], false⟩

end Merkle

/-- C4 amended: `deserialize(serialize(T))` succeeds and reproduces `T`'s
root hash for every well-formed tree `T` that is **not dirty** at
serialization time (no pending un-recomputed mutations); the round trip in
fact restores the stored root node exactly, whatever tree the deserializing
object held before. -/
theorem C4_serialize_roundtrip_clean (t t0 : Merkle.MTree)
    (hwf : Merkle.wfNode t.root = true) (hd : t.dirty = false) :
    (Merkle.deserialize t0 (Merkle.serialize t)).1 = true ∧
    Merkle.root_hash (Merkle.deserialize t0 (Merkle.serialize t)).2 =
      Merkle.root_hash t := by
  have hlen : ¬ ((Merkle.serialize t).length < 8) := by
    simp only [Merkle.serialize, List.length_append, Merkle.u32le,
      List.length_cons, List.length_nil]
    omega
  unfold Merkle.deserialize
  rw [if_neg hlen]
  have h1 : Merkle.readU32 (Merkle.serialize t) =
      some (0x4D524B4C, Merkle.u32le 1 ++ Merkle.serializeNode t.root) := by
    unfold Merkle.serialize
    rw [List.append_assoc]
    exact Merkle.readU32_u32le _ _ (by norm_num)
  rw [h1]
  simp only
  rw [if_neg (by simp)]
  rw [Merkle.readU32_u32le 1 _ (by norm_num)]
  simp only
  rw [if_neg (by simp)]
  have h3 : Merkle.dNode ((Merkle.serializeNode t.root).length + 1)
      (Merkle.serializeNode t.root) = some (t.root, []) := by
    have hd3 := (Merkle.dNode_roundtrip ((Merkle.serializeNode t.root).length + 1)).1
      t.root [] hwf (by have := Merkle.depthN_le_ser t.root; omega)
    simpa using hd3
  rw [h3]
  simp [Merkle.root_hash, hd]

/-- C4 amended, witness: the clean one-file tree `sampleTree`. -/
theorem C4_serialize_roundtrip_clean_witness :
    Merkle.wfNode Merkle.sampleTree.root = true ∧
    Merkle.sampleTree.dirty = false ∧
    ((Merkle.deserialize Merkle.emptyTree (Merkle.serialize Merkle.sampleTree)).1 = true ∧
     Merkle.root_hash
        (Merkle.deserialize Merkle.emptyTree
          (Merkle.serialize Merkle.sampleTree)).2 =
       Merkle.root_hash Merkle.sampleTree) :=
  ⟨by simp [Merkle.sampleTree, Merkle.wfNode, Merkle.wfChildren, Merkle.namesSorted],
   rfl,
   C4_serialize_roundtrip_clean Merkle.sampleTree Merkle.emptyTree
     (by simp [Merkle.sampleTree, Merkle.wfNode, Merkle.wfChildren, Merkle.namesSorted])
     rfl⟩
